import Mathlib

/-!
Verification of the heuristic resume-text extraction engine
(`src/lib/parser.ts` of the resume_github_insight repository).

The TypeScript module is shallowly embedded over `List Char`:
strings are their character lists, every JavaScript regular expression
used by the module is hand-compiled into an executable backtracking
matcher with the same leftmost-match / greedy / lazy semantics, and the
floating-point sentence scores (integers plus `length / 10`) are modelled
in `ℚ`, which is order-isomorphic to the actual values.
-/

namespace Resume

/-- JS whitespace (the `\s` class and the set trimmed by `String.trim`). -/
def isWS (c : Char) : Bool :=
  c.toNat = 32 || c.toNat = 9 || c.toNat = 10 || c.toNat = 11 || c.toNat = 12 ||
  c.toNat = 13 || c.toNat = 160 || c.toNat = 5760 ||
  (8192 ≤ c.toNat && c.toNat ≤ 8202) ||
  c.toNat = 8232 || c.toNat = 8233 || c.toNat = 8239 || c.toNat = 8287 ||
  c.toNat = 12288 || c.toNat = 65279

/-- ASCII digit, the JS `\d` class. -/
def isDigit (c : Char) : Bool := 48 ≤ c.toNat && c.toNat ≤ 57

/-- ASCII letter (`[A-Za-z]`), what `[A-Z]` matches under the `i` flag. -/
def isAsciiAlpha (c : Char) : Bool :=
  (65 ≤ c.toNat && c.toNat ≤ 90) || (97 ≤ c.toNat && c.toNat ≤ 122)

/-- ASCII lower-casing, the effect of `String.toLowerCase` on ASCII text. -/
def lowerChar (c : Char) : Char :=
  if 65 ≤ c.toNat ∧ c.toNat ≤ 90 then Char.ofNat (c.toNat + 32) else c

/-- The email local-part class `[A-Z0-9._%+-]` (with the `i` flag). -/
def isLocalChar (c : Char) : Bool :=
  isAsciiAlpha c || isDigit c || c = '.' || c = '_' || c = '%' || c = '+' || c = '-'

/-- The email domain class `[A-Z0-9.-]` (with the `i` flag). -/
def isDomainChar (c : Char) : Bool :=
  isAsciiAlpha c || isDigit c || c = '.' || c = '-'

/-- The phone separator class `[\s-]`. -/
def isSep (c : Char) : Bool := isWS c || c = '-'

/-- Source expression `text.replace(/\r/g, "\n")` acts on each character. -/
def crToLf (c : Char) : Char := if c = '\r' then '\n' else c

/-- Source expression `text.replace(/\n{2,}/g, "\n\n")`: every maximal run of two or more
newlines is replaced by exactly two.  `n` counts the newlines already
emitted in the current run. -/
def collapseAux : Nat → List Char → List Char
  | _, [] => []
  | n, c :: rest =>
    if c = '\n' then
      if 2 ≤ n then collapseAux n rest else '\n' :: collapseAux (n + 1) rest
    else c :: collapseAux 0 rest

/-- Source expression `String.trim`: drop JS whitespace from both ends. -/
def trimChars (l : List Char) : List Char :=
  ((l.dropWhile isWS).reverse.dropWhile isWS).reverse

/-- Embedding of `cleanText` from the source, on character lists:
`text.replace(/\r/g, "\n").replace(/\n{2,}/g, "\n\n").trim()`. -/
def cleanTextL (l : List Char) : List Char :=
  trimChars (collapseAux 0 (l.map crToLf))

/-- Embedding of `cleanText` at the string level. -/
def cleanText (s : String) : String := ⟨cleanTextL s.toList⟩

/-- Source expression `str.split(sep)` for a one-character separator class: the pieces
between delimiter occurrences (empty pieces included, as in JS). -/
def splitOnP (p : Char → Bool) : List Char → List (List Char)
  | [] => [[]]
  | c :: rest =>
    match splitOnP p rest with
    | [] => [[]]
    | s :: ss => if p c then [] :: s :: ss else (c :: s) :: ss

/-- First-seen-order de-duplication, the effect of `Array.from(new Set(xs))`. -/
def dedupFirstAux {α : Type} [DecidableEq α] (seen : List α) : List α → List α
  | [] => []
  | a :: l =>
    if a ∈ seen then dedupFirstAux seen l else a :: dedupFirstAux (a :: seen) l

/-- Source expression `Array.from(new Set(xs))`. -/
def dedupFirst {α : Type} [DecidableEq α] (l : List α) : List α := dedupFirstAux [] l

/-- Literal (case-sensitive) prefix test. -/
def plainStarts (pat : String) (l : List Char) : Bool := pat.toList.isPrefixOf l

/-- Case-insensitive prefix test against a lower-case pattern literal,
modelling a regex literal under the `i` flag. -/
def startsCI (pat : String) (l : List Char) : Bool :=
  pat.toList.isPrefixOf (l.map lowerChar)

/-- Source expression `hay.includes(pat)`: substring containment. -/
def hasSub (pat : List Char) : List Char → Bool
  | [] => pat.isEmpty
  | c :: rest => pat.isPrefixOf (c :: rest) || hasSub pat rest

/-- The phrase excluded by `extractName`. -/
def cvPhrase : List Char := "curriculum vitae".toList

/-- Embedding of `extractName` from the source: scan the lines, skip a line when its trim
is empty, longer than 60, contains a digit, or contains the case-insensitive
phrase "curriculum vitae"; return the first remaining trimmed line that
splits on the single space character into at most 5 pieces. -/
def extractName : List (List Char) → Option (List Char)
  | [] => none
  | line :: rest =>
    let t := trimChars line
    if t.isEmpty then extractName rest
    else if 60 < t.length then extractName rest
    else if t.any isDigit then extractName rest
    else if hasSub cvPhrase (t.map lowerChar) then extractName rest
    else if (splitOnP (fun c => c = ' ') t).length ≤ 5 then some t
    else extractName rest

/-- Embedding of `extractHeadline` from the source: the trimmed line following the first
line whose trimmed, lower-cased content equals the name, when that next line
is non-empty and at most 80 characters. -/
def extractHeadline (lines : List (List Char)) : Option (List Char) → Option (List Char)
  | none => none
  | some nm =>
    match lines.findIdx? (fun line => (trimChars line).map lowerChar = nm.map lowerChar) with
    | none => none
    | some i =>
      match lines.get? (i + 1) with
      | none => none
      | some next =>
        let t := trimChars next
        if ¬t.isEmpty ∧ t.length ≤ 80 then some t else none

/-! ## Email matcher: `[A-Z0-9._%+-]+@[A-Z0-9.-]+\.[A-Z]{2,}` with flags `gi` -/

/-- Try `\.[A-Z]{2,}` at the current position; returns the consumed length. -/
def tryDot : List Char → Option Nat
  | '.' :: r =>
    let run := r.takeWhile isAsciiAlpha
    if 2 ≤ run.length then some (1 + run.length) else none
  | _ => none

/-- Backtracking matcher for `[A-Z0-9.-]*\.[A-Z]{2,}`: greedily prefer
consuming another domain character, falling back to the final dot-and-TLD. -/
def domCont : List Char → Option Nat
  | [] => none
  | c :: rest =>
    if isDomainChar c then
      match domCont rest with
      | some n => some (n + 1)
      | none => tryDot (c :: rest)
    else tryDot (c :: rest)

/-- Match the email regex anchored at the head of `l`; returns the length. -/
def matchEmailAt (l : List Char) : Option Nat :=
  let loc := l.takeWhile isLocalChar
  if loc.length = 0 then none
  else
    match l.drop loc.length with
    | '@' :: rest =>
      match rest with
      | c :: r2 =>
        if isDomainChar c then (domCont r2).map (fun n => loc.length + 2 + n) else none
      | [] => none
    | _ => none

/-- Source expression `str.match(re)` with the `g` flag: repeatedly find the leftmost match,
continue after its end.  The fuel argument (the remaining length suffices)
makes the recursion structural; matchers below never return length 0. -/
def scanWith (matchAt : List Char → Option Nat) : Nat → List Char → List (List Char)
  | 0, _ => []
  | _, [] => []
  | fuel + 1, c :: rest =>
    match matchAt (c :: rest) with
    | some (n + 1) => (c :: rest).take (n + 1) :: scanWith matchAt fuel (rest.drop n)
    | _ => scanWith matchAt fuel rest

/-- All matches of the email regex. -/
def emailMatches (l : List Char) : List (List Char) := scanWith matchEmailAt l.length l

/-! ## Phone matcher:
`(?:\+?\d{1,3}[\s-]?)?(?:\(?\d{3}\)?[\s-]?)?\d{3}[\s-]?\d{4}` with flag `g` -/

/-- Consume exactly `n` digits, returning the rest. -/
def takeDigits : Nat → List Char → Option (List Char)
  | 0, l => some l
  | _ + 1, [] => none
  | n + 1, c :: rest => if isDigit c then takeDigits n rest else none

/-- The mandatory core `\d{3}[\s-]?\d{4}`; returns the consumed length. -/
def phoneCore (l : List Char) : Option Nat :=
  match takeDigits 3 l with
  | none => none
  | some l1 =>
    match
      (match l1 with
       | c :: r => if isSep c then (takeDigits 4 r).map (fun _ => 8) else none
       | [] => none) with
    | some n => some n
    | none => (takeDigits 4 l1).map (fun _ => 7)

/-- Source expression `[\s-]?` followed by the core, greedy on the separator. -/
def sepThenCore (l : List Char) : Option Nat :=
  match l with
  | c :: r =>
    if isSep c then
      match (phoneCore r).map (· + 1) with
      | some n => some n
      | none => phoneCore l
    else phoneCore l
  | [] => phoneCore l

/-- Source expression `\d{3}\)?[\s-]?` followed by the core (the body of the area-code group
after an optional opening parenthesis). -/
def areaDigits (l : List Char) : Option Nat :=
  match takeDigits 3 l with
  | none => none
  | some l1 =>
    match
      (match l1 with
       | ')' :: r => (sepThenCore r).map (· + 4)
       | _ => none) with
    | some n => some n
    | none => (sepThenCore l1).map (· + 3)

/-- Source expression `(?:\(?\d{3}\)?[\s-]?)?` followed by the core: the area-code group,
present (with or without parentheses) or absent. -/
def afterCountry (l : List Char) : Option Nat :=
  match
    (match l with
     | '(' :: r => (areaDigits r).map (· + 1)
     | _ => none) with
  | some n => some n
  | none =>
    match areaDigits l with
    | some n => some n
    | none => phoneCore l

/-- Source expression `[\s-]?` then the area-code group and core. -/
def sepThenAfterCountry (l : List Char) : Option Nat :=
  match l with
  | c :: r =>
    if isSep c then
      match (afterCountry r).map (· + 1) with
      | some n => some n
      | none => afterCountry l
    else afterCountry l
  | [] => afterCountry l

/-- Source expression `\d{1,3}[\s-]?` then the rest, trying three digits first (greedy). -/
def countryDigits (l : List Char) : Option Nat :=
  match
    (match takeDigits 3 l with
     | some l3 => (sepThenAfterCountry l3).map (· + 3)
     | none => none) with
  | some n => some n
  | none =>
    match
      (match takeDigits 2 l with
       | some l2 => (sepThenAfterCountry l2).map (· + 2)
       | none => none) with
    | some n => some n
    | none =>
      match takeDigits 1 l with
      | some l1 => (sepThenAfterCountry l1).map (· + 1)
      | none => none

/-- Match the phone regex anchored at the head of `l`. -/
def matchPhoneAt (l : List Char) : Option Nat :=
  match
    (match l with
     | '+' :: r => (countryDigits r).map (· + 1)
     | _ => none) with
  | some n => some n
  | none =>
    match countryDigits l with
    | some n => some n
    | none => afterCountry l

/-- All matches of the phone regex. -/
def phoneMatches (l : List Char) : List (List Char) := scanWith matchPhoneAt l.length l

/-- Source expression `phone.replace(/\s+/g, " ")`: each whitespace run becomes one space. -/
def wsToSpaceAux : Bool → List Char → List Char
  | _, [] => []
  | prev, c :: rest =>
    if isWS c then
      if prev then wsToSpaceAux true rest else ' ' :: wsToSpaceAux true rest
    else c :: wsToSpaceAux false rest

/-- The per-match phone normalisation `.replace(/\s+/g, " ").trim()`. -/
def normPhone (l : List Char) : List Char := trimChars (wsToSpaceAux false l)

/-! ## GitHub URL: `https?:\/\/(?:www\.)?github\.com\/[^\s)]+` with flags `gi`,
then username extraction via two `String.replace` calls and
`/^github\.com\/([^\/\s]+)/i` -/

/-- The path class `[^\s)]`. -/
def isPathChar (c : Char) : Bool := !(isWS c || c = ')')

/-- Source expression `github\.com\/[^\s)]+` (case-insensitive); returns the consumed length. -/
def githubTail (l : List Char) : Option Nat :=
  if startsCI "github.com/" l then
    let seg := (l.drop 11).takeWhile isPathChar
    if seg.length = 0 then none else some (11 + seg.length)
  else none

/-- Source expression `(?:www\.)?github\.com\/[^\s)]+`, greedy on the optional `www.`. -/
def githubAfterScheme (l : List Char) : Option Nat :=
  match (if startsCI "www." l then (githubTail (l.drop 4)).map (· + 4) else none) with
  | some n => some n
  | none => githubTail l

/-- Match the GitHub regex anchored at the head of `l`. -/
def matchGithubAt (l : List Char) : Option Nat :=
  if startsCI "https://" l then (githubAfterScheme (l.drop 8)).map (· + 8)
  else if startsCI "http://" l then (githubAfterScheme (l.drop 7)).map (· + 7)
  else none

/-- The first (leftmost) GitHub match, `matches[0]`. -/
def firstGithubMatch : List Char → Option (List Char)
  | [] => none
  | c :: rest =>
    match matchGithubAt (c :: rest) with
    | some n => some ((c :: rest).take n)
    | none => firstGithubMatch rest

/-- Source expression `.replace(/[\s,.;)]*$/, "")`: strip the trailing run of that class. -/
def isTrailPunct (c : Char) : Bool := isWS c || c = ',' || c = '.' || c = ';' || c = ')'

/-- Strip the trailing `[\s,.;)]*` run. -/
def stripTrail (l : List Char) : List Char := (l.reverse.dropWhile isTrailPunct).reverse

/-- Source expression `.replace(/https?:\/\//, "")`: remove the first (case-sensitive)
occurrence of the scheme, greedy on the optional `s`. -/
def replFirstScheme : List Char → List Char
  | [] => []
  | c :: rest =>
    if plainStarts "https://" (c :: rest) then rest.drop 7
    else if plainStarts "http://" (c :: rest) then rest.drop 6
    else c :: replFirstScheme rest

/-- Source expression `.replace(/www\./, "")`: remove the first occurrence of `www.`. -/
def replFirstWww : List Char → List Char
  | [] => []
  | c :: rest =>
    if plainStarts "www." (c :: rest) then rest.drop 3
    else c :: replFirstWww rest

/-- Source expression `.match(/^github\.com\/([^\/\s]+)/i)?.[1]`: the first path segment
(`[^\/\s]+` requires at least one character excluding `/` and whitespace). -/
def usernameOf (l : List Char) : Option (List Char) :=
  if startsCI "github.com/" l then
    if ((l.drop 11).takeWhile (fun c => !(c = '/' || isWS c))).isEmpty then none
    else some ((l.drop 11).takeWhile (fun c => !(c = '/' || isWS c)))
  else none

/-! ## Skills section:
`(skills|technical skills|toolbox|technologies)\s*: ?([\s\S]+?)(?:\n\n|experience|projects|education)`
with flag `i` -/

/-- The label alternation, in source order; the four literals are pairwise
non-prefixes of one another, so at most one matches at a position. -/
def matchLabelCI (l : List Char) : Option Nat :=
  if startsCI "skills" l then some 6
  else if startsCI "technical skills" l then some 16
  else if startsCI "toolbox" l then some 7
  else if startsCI "technologies" l then some 12
  else none

/-- Does the terminator `(?:\n\n|experience|projects|education)` match here? -/
def isTermAt (l : List Char) : Bool :=
  plainStarts "\n\n" l || startsCI "experience" l || startsCI "projects" l ||
  startsCI "education" l

/-- The lazy body `([\s\S]+?)`: the shortest non-empty prefix after which the
terminator matches. -/
def lazyBody : List Char → Option (List Char)
  | [] => none
  | c :: rest =>
    if isTermAt rest then some [c] else (lazyBody rest).map (fun b => c :: b)

/-- Source expression `\s*: ?` then the lazy body: mandatory colon after optional whitespace,
then a greedy optional single space. -/
def afterLabel (l : List Char) : Option (List Char) :=
  match l.dropWhile isWS with
  | ':' :: l2 =>
    match l2 with
    | ' ' :: l3 =>
      match lazyBody l3 with
      | some b => some b
      | none => lazyBody l2
    | _ => lazyBody l2
  | _ => none

/-- Leftmost match of the skills regex; returns capture group 2 (the body). -/
def skillsMatch : List Char → Option (List Char)
  | [] => none
  | c :: rest =>
    match matchLabelCI (c :: rest) with
    | some n =>
      match afterLabel ((c :: rest).drop n) with
      | some body => some body
      | none => skillsMatch rest
    | none => skillsMatch rest

/-- The split class `[,•\n]`. -/
def isSkillDelim (c : Char) : Bool := c = ',' || c = '•' || c = '\n'

/-- Embedding of `extractSkills` from the source. -/
def extractSkillsL (t : List Char) : List (List Char) :=
  match skillsMatch t with
  | none => []
  | some body =>
    ((((splitOnP isSkillDelim body).map trimChars).filter
        (fun s => decide (1 < s.length))).take 15)

/-- Embedding of `extractSkills` at the string level. -/
def extractSkills (s : String) : List (List Char) := extractSkillsL s.toList

/-! ## Sentence tokenizer and summary -/

/-- Source expression `.replace(/\n+/g, " ")`: each newline run becomes one space. -/
def nlToSpaceAux : Bool → List Char → List Char
  | _, [] => []
  | prev, c :: rest =>
    if c = '\n' then
      if prev then nlToSpaceAux true rest else ' ' :: nlToSpaceAux true rest
    else c :: nlToSpaceAux false rest

/-- Source expression `.split(/(?<=[.!?])\s+/)`: split where whitespace immediately follows
terminal punctuation.  Only the first whitespace character of a separator run
follows punctuation, so splitting there and leaving the remaining (later
trimmed) whitespace on the next piece yields the JS pieces up to trimming. -/
def splitSentAux (prev : Char) : List Char → List (List Char)
  | [] => [[]]
  | c :: rest =>
    if isWS c && (prev = '.' || prev = '!' || prev = '?') then
      [] :: splitSentAux c rest
    else
      match splitSentAux c rest with
      | [] => [[]]
      | s :: ss => (c :: s) :: ss

/-- Embedding of `tokenizeSentences` from the source. -/
def tokenizeSentencesL (t : List Char) : List (List Char) :=
  dedupFirst
    (((splitSentAux ' ' (nlToSpaceAux false t)).map trimChars).filter
      (fun s => decide (0 < s.length) && decide (s.length ≤ 300)))

/-- The fixed action/impact vocabulary `SUMMARY_KEYWORDS`. -/
def SUMMARY_KEYWORDS : List (List Char) :=
  ["experience".toList, "developed".toList, "engineer".toList, "project".toList,
   "designed".toList, "built".toList, "led".toList, "collaborated".toList,
   "improved".toList, "delivered".toList, "managed".toList, "optimized".toList,
   "implemented".toList, "created".toList, "modernized".toList, "launched".toList]

/-- The bullet/dash class `[•*-]`. -/
def isBullet (c : Char) : Bool := c = '•' || c = '*' || c = '-'

/-- Embedding of `scoreSentence` from the source, with the float score modelled in `ℚ`
(all scores are sums of integers and one exactly-representable `length/10`
term, so the modelling preserves every comparison the sort makes). -/
def scoreSentence (s : List Char) : ℚ :=
  let lower := s.map lowerChar
  let kwScore : ℚ := 2 * ((SUMMARY_KEYWORDS.filter (fun k => hasSub k lower)).length : ℚ)
  let lengthScore : ℚ := min ((s.length : ℚ) / 10) 10
  let bulletScore : ℚ := if s.any isBullet then 1 else 0
  let digitScore : ℚ := if s.any (fun c => c = '%') || s.any isDigit then 1 else 0
  kwScore + lengthScore + bulletScore + digitScore

/-- Stable descending insertion by score: an element is placed before the
first strictly smaller score and after all earlier equal scores, which is the
unique stable result of `sort((a, b) => b.score - a.score)`. -/
def insertScored (x : List Char × ℚ) : List (List Char × ℚ) → List (List Char × ℚ)
  | [] => [x]
  | y :: ys => if y.2 ≤ x.2 then x :: y :: ys else y :: insertScored x ys

/-- Stable descending sort by score. -/
def sortScored : List (List Char × ℚ) → List (List Char × ℚ)
  | [] => []
  | x :: xs => insertScored x (sortScored xs)

/-- Embedding of `buildSummary` from the source (including its unreachable fallback). -/
def buildSummary (sentences : List (List Char)) : List (List Char) :=
  if sentences.isEmpty then []
  else
    let scored := sentences.map (fun s => (s, scoreSentence s))
    let top := ((sortScored scored).take 4).map (fun p => p.1)
    if top.isEmpty then sentences.take 3 else top

/-! ## Top-level `parseResumeText` -/

/-- The result entity of the parser (`ParsedResume` in the source). -/
structure ParsedResume where
  name : Option (List Char)
  headline : Option (List Char)
  githubUrl : Option (List Char)
  githubUsername : Option (List Char)
  emails : List (List Char)
  phones : List (List Char)
  skills : List (List Char)
  summary : List (List Char)
  rawText : List Char
  deriving DecidableEq

/-- Embedding of `parseResumeText` from the source, over character lists. -/
def parseResumeTextL (text : List Char) : ParsedResume :=
  let cleaned := cleanTextL text
  let lines := splitOnP (fun c => c = '\n') cleaned
  let name := extractName lines
  let headline := extractHeadline lines name
  let emails := (dedupFirst (emailMatches cleaned)).map (List.map lowerChar)
  let phones :=
    ((phoneMatches cleaned).map normPhone).filter
      (fun p => decide (10 ≤ (p.filter isDigit).length))
  let rawGithubUrl := (firstGithubMatch cleaned).map stripTrail
  let githubUsername :=
    match rawGithubUrl with
    | some url => usernameOf (replFirstWww (replFirstScheme url))
    | none => none
  let githubUrl :=
    match githubUsername with
    | some u => some ("https://github.com/".toList ++ u)
    | none => rawGithubUrl
  { name := name
    headline := headline
    githubUrl := githubUrl
    githubUsername := githubUsername
    emails := emails
    phones := phones
    skills := extractSkillsL cleaned
    summary := buildSummary (tokenizeSentencesL cleaned)
    rawText := cleaned }

/-- Embedding of `parseResumeText` at the string level. -/
def parseResumeText (s : String) : ParsedResume := parseResumeTextL s.toList

/-! ## Basic lemmas about the embedding -/

theorem emails_def (l : List Char) :
    (parseResumeTextL l).emails =
      (dedupFirst (emailMatches (cleanTextL l))).map (List.map lowerChar) := rfl

theorem phones_def (l : List Char) :
    (parseResumeTextL l).phones =
      ((phoneMatches (cleanTextL l)).map normPhone).filter
        (fun p => decide (10 ≤ (p.filter isDigit).length)) := rfl

theorem githubUsername_def (l : List Char) :
    (parseResumeTextL l).githubUsername =
      match (firstGithubMatch (cleanTextL l)).map stripTrail with
      | some url => usernameOf (replFirstWww (replFirstScheme url))
      | none => none := rfl

theorem lowerChar_not_upper (c : Char) :
    ¬(65 ≤ (lowerChar c).toNat ∧ (lowerChar c).toNat ≤ 90) := by
  unfold lowerChar
  split
  · next h =>
    obtain ⟨h1, h2⟩ := h
    generalize hk : c.toNat = k at h1 h2
    interval_cases k <;> decide
  · next h => exact h

theorem lowerChar_lowerChar (c : Char) : lowerChar (lowerChar c) = lowerChar c := by
  by_cases h : 65 ≤ c.toNat ∧ c.toNat ≤ 90
  · have h2 := lowerChar_not_upper c
    unfold lowerChar
    rw [if_pos h]
    rw [if_neg]
    intro hc
    exact h2 (by simpa [lowerChar, if_pos h] using hc)
  · unfold lowerChar
    rw [if_neg h, if_neg h]

theorem mapLower_mapLower (x : List Char) :
    (x.map lowerChar).map lowerChar = x.map lowerChar := by
  rw [List.map_map]
  exact List.map_congr_left (fun c _ => lowerChar_lowerChar c)

theorem dedupFirstAux_spec {α : Type} [DecidableEq α] (l : List α) :
    ∀ seen, (dedupFirstAux seen l).Nodup ∧ ∀ x ∈ dedupFirstAux seen l, x ∉ seen := by
  induction l with
  | nil => intro seen; simp [dedupFirstAux]
  | cons a l ih =>
    intro seen
    by_cases h : a ∈ seen
    · simpa [dedupFirstAux, h] using ih seen
    · refine ⟨?_, ?_⟩
      · simp only [dedupFirstAux, if_neg h, List.nodup_cons]
        refine ⟨fun hmem => ?_, (ih (a :: seen)).1⟩
        exact (ih (a :: seen)).2 a hmem (List.mem_cons_self a seen)
      · intro x hx
        simp only [dedupFirstAux, if_neg h, List.mem_cons] at hx
        rcases hx with rfl | hx
        · exact h
        · intro hseen
          exact (ih (a :: seen)).2 x hx (List.mem_cons_of_mem a hseen)

theorem nodup_dedupFirst {α : Type} [DecidableEq α] (l : List α) :
    (dedupFirst l).Nodup := (dedupFirstAux_spec l []).1

/-! ## C1: emails are exact-deduplicated, then lower-cased -/

/-- C1 (amended): every entry of `emails` is lower-case (no ASCII uppercase
letter survives, and lower-casing the list is the identity), and the matched
email substrings are de-duplicated by exact string equality before the
lower-casing step, in first-seen order. -/
theorem emails_exact_dedup_lowercase (s : String) :
    (parseResumeText s).emails.map (List.map lowerChar) = (parseResumeText s).emails ∧
    (dedupFirst (emailMatches (cleanTextL s.toList))).Nodup ∧
    ∀ e ∈ (parseResumeText s).emails, ∀ c ∈ e, ¬(65 ≤ c.toNat ∧ c.toNat ≤ 90) := by
  refine ⟨?_, nodup_dedupFirst _, ?_⟩
  · show ((dedupFirst (emailMatches (cleanTextL s.toList))).map
        (List.map lowerChar)).map (List.map lowerChar) = _
    rw [List.map_map]
    exact List.map_congr_left (fun x _ => mapLower_mapLower x)
  · intro e he c hc
    rw [show (parseResumeText s).emails =
        (dedupFirst (emailMatches (cleanTextL s.toList))).map (List.map lowerChar)
      from rfl] at he
    obtain ⟨x, _, rfl⟩ := List.mem_map.mp he
    obtain ⟨c', _, rfl⟩ := List.mem_map.mp hc
    exact lowerChar_not_upper c'

/-- Witness for C1 at a concrete input. -/
theorem emails_exact_dedup_lowercase_witness :
    (parseResumeText "A@b.cc").emails.map (List.map lowerChar) =
      (parseResumeText "A@b.cc").emails :=
  (emails_exact_dedup_lowercase "A@b.cc").1

/-- C1 counterexample: two differently-cased occurrences of one email yield
two (identical, hence case-insensitively equal) lower-cased entries, so the
de-duplication is not case-insensitive. -/
theorem emails_ci_counterexample :
    ¬ List.Pairwise (fun a b : List Char => a.map lowerChar ≠ b.map lowerChar)
      ((parseResumeText "A@B.CC a@b.cc").emails) := by
  intro h
  have he : (parseResumeText "A@B.CC a@b.cc").emails =
      ["a@b.cc".toList, "a@b.cc".toList] := by decide
  rw [he] at h
  exact (List.pairwise_cons.mp h).1 _ (List.mem_cons_self _ _) rfl

/-! ## C4: totality of `parseResumeText` -/

/-- C4: `parseResumeText` is a total function: for every string (the empty
string included) it returns a fully populated `ParsedResume` whose `rawText`
is the normalized text; on the empty string every field is null or empty
rather than a failure. -/
theorem parseResumeText_total (s : String) :
    (∃ r : ParsedResume, parseResumeText s = r ∧ r.rawText = cleanTextL s.toList) ∧
    parseResumeText "" =
      { name := none, headline := none, githubUrl := none, githubUsername := none,
        emails := [], phones := [], skills := [], summary := [], rawText := [] } :=
  ⟨⟨parseResumeText s, rfl, rfl⟩, by decide⟩

/-! ## C2 counterexample: phones are not de-duplicated -/

/-- C2 counterexample: the same phone number written twice yields two
identical entries in `phones` — there is no de-duplication step. -/
theorem phones_dup_counterexample :
    ¬ ((parseResumeText "123-456-7890 123-456-7890").phones).Nodup := by decide

/-! ## C3 counterexample: CR-LF does not normalize like LF -/

/-- C3 counterexample: `cleanText` maps the CR of a CR-LF pair to a second
LF (then keeps the two-newline run), so a CR-LF input does not normalize to
the same text as the LF input. -/
theorem cleanText_crlf_counterexample : cleanText "a\r\nb" ≠ cleanText "a\nb" := by
  decide

/-! ## C5: the colon after a skills header is mandatory -/

theorem afterLabel_colon {l : List Char} {b : List Char}
    (h : afterLabel l = some b) : ':' ∈ l := by
  unfold afterLabel at h
  split at h
  · next l2 heq =>
    have hmem : ':' ∈ l.dropWhile isWS := by
      rw [heq]; exact List.mem_cons_self _ _
    exact (List.dropWhile_sublist isWS).subset hmem
  · exact absurd h (by simp)

theorem skillsMatch_none {l : List Char} (h : ∀ c ∈ l, c ≠ ':') :
    skillsMatch l = none := by
  induction l with
  | nil => rfl
  | cons c rest ih =>
    have ih' : skillsMatch rest = none :=
      ih (fun x hx => h x (List.mem_cons_of_mem _ hx))
    cases hm : matchLabelCI (c :: rest) with
    | none => simp [skillsMatch, hm, ih']
    | some n =>
      cases ha : afterLabel ((c :: rest).drop n) with
      | none => simp [skillsMatch, hm, ha, ih']
      | some body =>
        exact absurd rfl
          (h ':' (List.drop_subset n (c :: rest) (afterLabel_colon ha)))

/-- C5 (amended): the colon is mandatory, not optional: a header from the
label set matches only when followed by (optional whitespace and) a literal
colon, so any text containing no colon at all yields an empty skills
sequence, whatever headers it contains. -/
theorem extractSkills_requires_colon (s : String) (h : ∀ c ∈ s.toList, c ≠ ':') :
    extractSkills s = [] := by
  unfold extractSkills extractSkillsL
  rw [skillsMatch_none h]

/-- Witness for C5 at a concrete input. -/
theorem extractSkills_requires_colon_witness : extractSkills "skills Go Rust" = [] :=
  extractSkills_requires_colon "skills Go Rust" (by decide)

/-- C5 counterexample: the same skills section with and without the colon —
the colon-free header does not match at all, while the colon version yields
the skill tokens, refuting "the colon is optional". -/
theorem extractSkills_colon_counterexample :
    extractSkills "skills Go, Rust\n\nx" = [] ∧
    extractSkills "skills: Go, Rust\n\nx" = ["Go".toList, "Rust".toList] := by
  decide

/-! ## C9: name selection -/

/-- The per-line acceptance test of `extractName`, on the trimmed line:
non-empty, at most 60 characters, no digit, no "curriculum vitae", and at
most 5 pieces when split on the single space character. -/
def nameOk (t : List Char) : Bool :=
  !t.isEmpty && decide (t.length ≤ 60) && !t.any isDigit &&
  !hasSub cvPhrase (t.map lowerChar) &&
  decide ((splitOnP (fun c => c = ' ') t).length ≤ 5)

/-- Modelled from the spec: the claimed word rule counts whitespace-separated
words (maximal non-whitespace runs) instead of single-space-split pieces. -/
def claimNameOk (t : List Char) : Bool :=
  !t.isEmpty && decide (t.length ≤ 60) && !t.any isDigit &&
  !hasSub cvPhrase (t.map lowerChar) &&
  decide (((splitOnP isWS t).filter (fun s => decide (0 < s.length))).length ≤ 5)

/-- Modelled from the spec: name extraction as the claim states it. -/
def claimExtractName (lines : List (List Char)) : Option (List Char) :=
  (lines.map trimChars).find? claimNameOk

/-- C9 (amended): name extraction returns the trimmed content of the first
line that is non-empty, has length at most 60, contains no digit, does not
contain "curriculum vitae" (case-insensitively), and splits on the single
space character into at most 5 pieces (not whitespace-separated words);
it returns null exactly when no line satisfies these conditions. -/
theorem extractName_characterization (lines : List (List Char)) :
    extractName lines = (lines.map trimChars).find? nameOk ∧
    (extractName lines = none ↔ ∀ l ∈ lines, nameOk (trimChars l) = false) := by
  have main : extractName lines = (lines.map trimChars).find? nameOk := by
    induction lines with
    | nil => rfl
    | cons line rest ih =>
      by_cases h1 : (trimChars line).isEmpty
      · simp [extractName, nameOk, h1, ih]
      · by_cases h2 : 60 < (trimChars line).length
        · simp [extractName, nameOk, h1, h2, Nat.not_le.mpr h2, ih]
        · by_cases h3 : (trimChars line).any isDigit
          · simp [extractName, nameOk, h1, h2, h3, Nat.not_lt.mp h2, ih]
          · by_cases h4 :
              hasSub cvPhrase ((trimChars line).map lowerChar)
            · simp [extractName, nameOk, h1, h2, h3, h4, Nat.not_lt.mp h2, ih]
            · by_cases h5 :
                (splitOnP (fun c => c = ' ') (trimChars line)).length ≤ 5
              · simp [extractName, nameOk, h1, h2, h3, h4, h5, Nat.not_lt.mp h2]
              · simp [extractName, nameOk, h1, h2, h3, h4, h5, Nat.not_lt.mp h2, ih]
  refine ⟨main, ?_⟩
  rw [main, List.find?_eq_none]
  constructor
  · intro h l hl
    have := h (trimChars l) (List.mem_map_of_mem trimChars hl)
    simpa using this
  · intro h x hx
    obtain ⟨l, hl, rfl⟩ := List.mem_map.mp hx
    simp [h l hl]

/-- Witness for C9 at a concrete input. -/
theorem extractName_characterization_witness :
    extractName ["Jane Doe".toList] =
      (["Jane Doe".toList].map trimChars).find? nameOk :=
  (extractName_characterization ["Jane Doe".toList]).1

/-- C9 counterexample: a single line of six tab-separated words has six
whitespace-separated words (so the claim selects no line and returns null),
but splits on the space character into one piece, so the code returns it. -/
theorem extractName_words_counterexample :
    extractName ["a\tb\tc\td\te\tf".toList] ≠
      claimExtractName ["a\tb\tc\td\te\tf".toList] := by decide

/-! ## C10: the GitHub username is a single clean path segment -/

theorem usernameOf_spec {l u : List Char} (h : usernameOf l = some u) :
    u ≠ [] ∧ ∀ c ∈ u, c ≠ '/' ∧ isWS c = false := by
  unfold usernameOf at h
  split at h
  · split at h
    · exact absurd h (by simp)
    · next hne =>
      obtain rfl : _ = u := Option.some.inj h
      refine ⟨by simpa [List.isEmpty_iff] using hne, ?_⟩
      intro c hc
      have hp := List.mem_takeWhile_imp hc
      simp only [Bool.not_eq_true', Bool.or_eq_false_iff, decide_eq_false_iff_not]
        at hp
      exact hp
  · exact absurd h (by simp)

/-- C10: whenever `githubUsername` is non-null it is a non-empty segment
containing no slash and no whitespace — exactly one path segment. -/
theorem githubUsername_single_segment (s : String) (u : List Char)
    (h : (parseResumeText s).githubUsername = some u) :
    u ≠ [] ∧ ∀ c ∈ u, c ≠ '/' ∧ isWS c = false := by
  have hd := githubUsername_def s.toList
  rw [show (parseResumeText s).githubUsername = (parseResumeTextL s.toList).githubUsername
    from rfl, hd] at h
  cases hfm : firstGithubMatch (cleanTextL s.toList) with
  | none => rw [hfm] at h; exact absurd h (by simp)
  | some url =>
    rw [hfm] at h
    exact usernameOf_spec h

/-- Witness for C10 at a concrete input. -/
theorem githubUsername_single_segment_witness : "janedoe".toList ≠ [] :=
  (githubUsername_single_segment "See https://github.com/janedoe now"
    "janedoe".toList (by decide)).1

/-! ## C6: keyword scoring is per keyword, not per occurrence -/

/-- The sentence score scaled by 10, in `ℕ`; used to evaluate concrete
scores, since `scoreSentence s = scoreScaled s / 10` exactly. -/
def scoreScaled (s : List Char) : ℕ :=
  20 * (SUMMARY_KEYWORDS.filter (fun k => hasSub k (s.map lowerChar))).length +
  min s.length 100 +
  (if s.any isBullet then 10 else 0) +
  (if s.any (fun c => c = '%') || s.any isDigit then 10 else 0)

theorem scoreSentence_eq_scaled (s : List Char) :
    scoreSentence s = (scoreScaled s : ℚ) / 10 := by
  have hmin : min ((s.length : ℚ) / 10) 10 = ((min s.length 100 : ℕ) : ℚ) / 10 := by
    rcases le_total s.length 100 with h | h
    · have hc : (s.length : ℚ) ≤ 100 := by exact_mod_cast h
      rw [Nat.min_eq_left h, min_eq_left (by linarith)]
    · have hc : (100 : ℚ) ≤ (s.length : ℚ) := by exact_mod_cast h
      rw [Nat.min_eq_right h, min_eq_right (by linarith)]
      norm_num
  simp only [scoreSentence, scoreScaled]
  rw [hmin]
  split_ifs <;> push_cast <;> ring

/-- C6 (amended): each keyword in the vocabulary contributes at most one
2-point bonus, however many times it occurs, so the whole score is bounded
by twice the vocabulary size plus the length score plus the two one-point
bonuses (per-occurrence scoring would be unbounded). -/
theorem scoreSentence_keyword_bound (s : List Char) :
    scoreSentence s ≤
      2 * (SUMMARY_KEYWORDS.length : ℚ) + min ((s.length : ℚ) / 10) 10 + 2 := by
  simp only [scoreSentence]
  have h1 : (((SUMMARY_KEYWORDS.filter
        (fun k => hasSub k (s.map lowerChar))).length : ℕ) : ℚ) ≤
      (SUMMARY_KEYWORDS.length : ℚ) := by
    exact_mod_cast List.length_filter_le _ _
  split_ifs <;> linarith

/-- Modelled from the spec: the number of occurrences of `pat` (distinct
start positions) in a list, for the claimed per-occurrence scoring. -/
def countOccur (pat : List Char) : List Char → ℕ
  | [] => if pat.isEmpty then 1 else 0
  | c :: rest => (if pat.isPrefixOf (c :: rest) then 1 else 0) + countOccur pat rest

/-- Modelled from the spec: `scoreSentence` as the claim states it, adding
2 points for each occurrence of each keyword. -/
def claimScoreSentence (s : List Char) : ℚ :=
  let lower := s.map lowerChar
  let kwScore : ℚ := 2 * ((SUMMARY_KEYWORDS.map (fun k => countOccur k lower)).sum : ℚ)
  let lengthScore : ℚ := min ((s.length : ℚ) / 10) 10
  let bulletScore : ℚ := if s.any isBullet then 1 else 0
  let digitScore : ℚ := if s.any (fun c => c = '%') || s.any isDigit then 1 else 0
  kwScore + lengthScore + bulletScore + digitScore

/-- C6 counterexample: "built built" contains the keyword "built" twice but
receives 2 keyword points (total 3.1), not the 4 (total 5.1) the claim's
per-occurrence rule assigns. -/
theorem scoreSentence_occurrence_counterexample :
    scoreSentence "built built".toList = 31 / 10 ∧
    claimScoreSentence "built built".toList = 51 / 10 ∧
    scoreSentence "built built".toList ≠ claimScoreSentence "built built".toList := by
  have h1 : scoreScaled "built built".toList = 31 := by decide
  have hs : scoreSentence "built built".toList = 31 / 10 := by
    rw [scoreSentence_eq_scaled, h1]; norm_num
  have hsum : (SUMMARY_KEYWORDS.map
      (fun k => countOccur k ("built built".toList.map lowerChar))).sum = 2 := by decide
  have hlen : ("built built".toList.length : ℚ) = 11 := by norm_num
  have hb : ("built built".toList.any isBullet) = false := by decide
  have hd : (("built built".toList.any fun c => decide (c = '%')) ||
      "built built".toList.any isDigit) = false := by decide
  have hc : claimScoreSentence "built built".toList = 51 / 10 := by
    simp only [claimScoreSentence, hsum, hlen, hb, hd]
    rw [min_eq_left (by norm_num)]
    norm_num
  exact ⟨hs, hc, by rw [hs, hc]; norm_num⟩

/-! ## Normal form of `cleanText`: no CR, no triple newline, trimmed -/

/-- Three consecutive newlines. -/
def nlTriple : List Char := ['\n', '\n', '\n']

/-- No three consecutive newlines occur. -/
def noTriple (l : List Char) : Bool := !hasSub nlTriple l

/-- The length of the leading newline run. -/
def leadNL (l : List Char) : ℕ := (l.takeWhile (fun c => c = '\n')).length

theorem leadNL_cons_nl (l : List Char) : leadNL ('\n' :: l) = leadNL l + 1 := by
  simp [leadNL, List.takeWhile_cons]

theorem leadNL_cons_ne {c : Char} (h : c ≠ '\n') (l : List Char) :
    leadNL (c :: l) = 0 := by
  simp [leadNL, List.takeWhile_cons, h]

theorem isPrefixOf_nlTriple_iff (l : List Char) :
    nlTriple.isPrefixOf l = true ↔ ∃ r, l = '\n' :: '\n' :: '\n' :: r := by
  match l with
  | [] => simp [nlTriple, List.isPrefixOf]
  | [c1] => simp [nlTriple, List.isPrefixOf]
  | [c1, c2] => simp [nlTriple, List.isPrefixOf]
  | c1 :: c2 :: c3 :: r =>
    simp only [nlTriple, List.isPrefixOf, List.isPrefixOf_nil_left, Bool.and_true,
      Bool.and_eq_true, beq_iff_eq]
    constructor
    · rintro ⟨h1, h2, h3⟩
      exact ⟨r, by rw [← h1, ← h2, ← h3]⟩
    · rintro ⟨r', hr⟩
      injection hr with e1 hr; injection hr with e2 hr; injection hr with e3 _
      exact ⟨e1.symm, e2.symm, e3.symm⟩

theorem leadNL_ge2 {l : List Char} (h : 2 ≤ leadNL l) :
    ∃ r, l = '\n' :: '\n' :: r := by
  match l with
  | [] => simp [leadNL] at h
  | c1 :: rest =>
    by_cases h1 : c1 = '\n'
    · subst h1
      rw [leadNL_cons_nl] at h
      match rest with
      | [] => simp [leadNL] at h
      | c2 :: rest2 =>
        by_cases h2 : c2 = '\n'
        · exact ⟨rest2, by rw [h2]⟩
        · rw [leadNL_cons_ne h2] at h; omega
    · rw [leadNL_cons_ne h1] at h; omega

theorem leadNL_le_two {l : List Char} (h : noTriple l = true) : leadNL l ≤ 2 := by
  by_contra h3
  have h3' : 2 ≤ leadNL l := by omega
  obtain ⟨r, hr⟩ := leadNL_ge2 h3'
  subst hr
  rw [leadNL_cons_nl, leadNL_cons_nl] at h3
  have : 1 ≤ leadNL r := by omega
  have h1 : ∃ r2, r = '\n' :: r2 := by
    match r with
    | [] => simp [leadNL] at this
    | c :: r2 =>
      by_cases hc : c = '\n'
      · exact ⟨r2, by rw [hc]⟩
      · rw [leadNL_cons_ne hc] at this; omega
  obtain ⟨r2, rfl⟩ := h1
  have : hasSub nlTriple ('\n' :: '\n' :: '\n' :: r2) = true := by
    simp [hasSub, (isPrefixOf_nlTriple_iff _).mpr ⟨r2, rfl⟩]
  simp [noTriple, this] at h

theorem hasSub_cons (pat : List Char) (c : Char) (l : List Char) :
    hasSub pat (c :: l) = (pat.isPrefixOf (c :: l) || hasSub pat l) := rfl

theorem noTriple_tail {c : Char} {l : List Char} (h : noTriple (c :: l) = true) :
    noTriple l = true := by
  simp only [noTriple, hasSub_cons, Bool.not_eq_true', Bool.or_eq_false_iff] at h ⊢
  exact h.2

theorem noTriple_cons {c : Char} {l : List Char} (hl : noTriple l = true)
    (hc : c = '\n' → leadNL l ≤ 1) : noTriple (c :: l) = true := by
  simp only [noTriple, hasSub_cons, Bool.not_eq_true', Bool.or_eq_false_iff]
  refine ⟨?_, by simpa [noTriple] using hl⟩
  rw [Bool.eq_false_iff]
  intro hpre
  obtain ⟨r, hr⟩ := (isPrefixOf_nlTriple_iff _).mp hpre
  injection hr with e1 hr
  have : leadNL l ≤ 1 := hc e1
  rw [hr, leadNL_cons_nl, leadNL_cons_nl] at this
  omega

theorem hasSub_append_right {pat y : List Char} (h : hasSub pat y = true)
    (x : List Char) : hasSub pat (x ++ y) = true := by
  induction x with
  | nil => simpa using h
  | cons c x ih => simp [hasSub_cons, ih]

theorem hasSub_of_isPrefixOf {pat x : List Char} (h : pat.isPrefixOf x = true) :
    hasSub pat x = true := by
  match x with
  | [] =>
    have : pat = [] := by
      cases pat with
      | nil => rfl
      | cons a as => simp [List.isPrefixOf] at h
    simp [this, hasSub]
  | c :: r => simp [hasSub_cons, h]

theorem isPrefixOf_append_ext {pat x : List Char} (h : pat.isPrefixOf x = true)
    (y : List Char) : pat.isPrefixOf (x ++ y) = true := by
  rw [ List.isPrefixOf_iff_prefix] at h ⊢
  exact h.trans (List.prefix_append x y)

theorem hasSub_append_left {pat x : List Char} (h : hasSub pat x = true)
    (y : List Char) : hasSub pat (x ++ y) = true := by
  induction x with
  | nil =>
    simp only [hasSub, List.isEmpty_iff] at h
    subst h
    exact hasSub_of_isPrefixOf (by simp [List.isPrefixOf])
  | cons c x ih =>
    simp only [hasSub_cons, Bool.or_eq_true] at h
    rcases h with h | h
    · have h2 := isPrefixOf_append_ext h y
      simp only [List.cons_append] at h2
      simp [hasSub_cons, h2]
    · simp [hasSub_cons, ih h]

theorem noTriple_of_append {x y z : List Char}
    (h : noTriple (x ++ y ++ z) = true) : noTriple y = true := by
  rw [List.append_assoc] at h
  simp only [noTriple, Bool.not_eq_true'] at h ⊢
  rw [Bool.eq_false_iff] at h ⊢
  intro hy
  exact h (hasSub_append_right (hasSub_append_left hy z) x)

theorem collapse_good (l : List Char) :
    ∀ n, noTriple (collapseAux n l) = true ∧
      leadNL (collapseAux n l) + min n 2 ≤ 2 := by
  induction l with
  | nil =>
    intro n
    rw [show collapseAux n [] = ([] : List Char) from rfl]
    exact ⟨by decide, by simp [leadNL]⟩
  | cons c rest ih =>
    intro n
    by_cases hc : c = '\n'
    · subst hc
      by_cases hn : 2 ≤ n
      · rw [show collapseAux n ('\n' :: rest) = collapseAux n rest by
          simp [collapseAux, hn]]
        exact ih n
      · rw [show collapseAux n ('\n' :: rest) = '\n' :: collapseAux (n + 1) rest by
          simp [collapseAux, hn]]
        obtain ⟨h1, h2⟩ := ih (n + 1)
        have hn' : n ≤ 1 := by omega
        have hmin1 : min (n + 1) 2 = n + 1 := by omega
        have hmin0 : min n 2 = n := by omega
        rw [hmin1] at h2
        refine ⟨noTriple_cons h1 (fun _ => by omega), ?_⟩
        rw [leadNL_cons_nl, hmin0]
        omega
    · rw [show collapseAux n (c :: rest) = c :: collapseAux 0 rest by
        simp [collapseAux, hc]]
      obtain ⟨h1, _⟩ := ih 0
      refine ⟨noTriple_cons h1 (fun h => absurd h hc), ?_⟩
      rw [leadNL_cons_ne hc]
      omega

theorem collapse_fix_aux (l : List Char) :
    ∀ n, noTriple l = true → leadNL l + min n 2 ≤ 2 → collapseAux n l = l := by
  induction l with
  | nil => intro n _ _; rfl
  | cons c rest ih =>
    intro n h1 h2
    by_cases hc : c = '\n'
    · subst hc
      rw [leadNL_cons_nl] at h2
      have hn : ¬2 ≤ n := by omega
      rw [show collapseAux n ('\n' :: rest) = '\n' :: collapseAux (n + 1) rest by
        simp [collapseAux, hn]]
      rw [ih (n + 1) (noTriple_tail h1) (by omega)]
    · rw [show collapseAux n (c :: rest) = c :: collapseAux 0 rest by
        simp [collapseAux, hc]]
      rw [ih 0 (noTriple_tail h1)
        (by simpa using leadNL_le_two (noTriple_tail h1))]

theorem collapse_fix {l : List Char} (h : noTriple l = true) :
    collapseAux 0 l = l :=
  collapse_fix_aux l 0 h (by simpa using leadNL_le_two h)

theorem mem_collapseAux {c : Char} {l : List Char} :
    ∀ {n}, c ∈ collapseAux n l → c ∈ l := by
  induction l with
  | nil => intro n h; simp [collapseAux] at h
  | cons c0 rest ih =>
    intro n h
    by_cases hc : c0 = '\n'
    · subst hc
      by_cases hn : 2 ≤ n
      · rw [show collapseAux n ('\n' :: rest) = collapseAux n rest by
          simp [collapseAux, hn]] at h
        exact List.mem_cons_of_mem _ (ih h)
      · rw [show collapseAux n ('\n' :: rest) = '\n' :: collapseAux (n + 1) rest by
          simp [collapseAux, hn]] at h
        rcases List.mem_cons.mp h with rfl | h
        · exact List.mem_cons_self _ _
        · exact List.mem_cons_of_mem _ (ih h)
    · rw [show collapseAux n (c0 :: rest) = c0 :: collapseAux 0 rest by
        simp [collapseAux, hc]] at h
      rcases List.mem_cons.mp h with rfl | h
      · exact List.mem_cons_self _ _
      · exact List.mem_cons_of_mem _ (ih h)

/-! ## Trim: decomposition and idempotence -/

theorem trim_decomp (l : List Char) : ∃ p q, l = p ++ trimChars l ++ q := by
  have hpre : trimChars l <+: l.dropWhile isWS := List.rdropWhile_prefix isWS _
  obtain ⟨t, ht⟩ := hpre
  obtain ⟨p, hp⟩ := List.dropWhile_suffix (l := l) isWS
  refine ⟨p, t, ?_⟩
  conv_lhs => rw [← hp, ← ht]
  rw [List.append_assoc]

theorem mem_trimChars {c : Char} {l : List Char} (h : c ∈ trimChars l) : c ∈ l := by
  obtain ⟨p, q, hl⟩ := trim_decomp l
  rw [hl]
  simp [h]

theorem noTriple_trimChars {l : List Char} (h : noTriple l = true) :
    noTriple (trimChars l) = true := by
  obtain ⟨p, q, hl⟩ := trim_decomp l
  rw [hl] at h
  exact noTriple_of_append h

theorem dropWhile_trimChars (l : List Char) :
    (trimChars l).dropWhile isWS = trimChars l := by
  cases hc : trimChars l with
  | nil => rfl
  | cons c r =>
    have hpre : trimChars l <+: l.dropWhile isWS := List.rdropWhile_prefix isWS _
    rw [hc] at hpre
    obtain ⟨t, ht⟩ := hpre
    have hne : l.dropWhile isWS ≠ [] := by rw [← ht]; simp
    have hhead := List.head_dropWhile_not isWS l hne
    have hq : (l.dropWhile isWS).head? = some c := by
      rw [← ht]; simp
    have hcc : (l.dropWhile isWS).head hne = c := by
      have h2 := List.head?_eq_head (l := l.dropWhile isWS) hne
      rw [hq] at h2
      exact (Option.some.inj h2).symm
    rw [hcc] at hhead
    simp [List.dropWhile_cons, hhead]

theorem trim_trim (l : List Char) : trimChars (trimChars l) = trimChars l := by
  show List.rdropWhile isWS ((trimChars l).dropWhile isWS) = trimChars l
  rw [dropWhile_trimChars]
  show List.rdropWhile isWS (List.rdropWhile isWS (l.dropWhile isWS)) = _
  exact List.rdropWhile_idempotent isWS _

/-! ## C8: idempotence of normalization -/

theorem crToLf_ne_cr (c : Char) : crToLf c ≠ '\r' := by
  unfold crToLf
  split
  · decide
  · assumption

theorem no_cr_cleanText (l : List Char) : ∀ c ∈ cleanTextL l, c ≠ '\r' := by
  intro c hc
  have h1 : c ∈ collapseAux 0 (l.map crToLf) := mem_trimChars hc
  have h2 : c ∈ l.map crToLf := mem_collapseAux h1
  obtain ⟨x, _, rfl⟩ := List.mem_map.mp h2
  exact crToLf_ne_cr x

theorem noTriple_cleanText (l : List Char) : noTriple (cleanTextL l) = true :=
  noTriple_trimChars (collapse_good (l.map crToLf) 0).1

theorem cleanTextL_idem (l : List Char) : cleanTextL (cleanTextL l) = cleanTextL l := by
  have h1 : (cleanTextL l).map crToLf = cleanTextL l := by
    have := no_cr_cleanText l
    calc (cleanTextL l).map crToLf = (cleanTextL l).map id :=
          List.map_congr_left (fun c hc => by simp [crToLf, this c hc])
      _ = cleanTextL l := List.map_id _
  show trimChars (collapseAux 0 ((cleanTextL l).map crToLf)) = cleanTextL l
  rw [h1, collapse_fix (noTriple_cleanText l)]
  exact trim_trim _

/-- C8: `cleanText` is idempotent: normalizing already-normalized text
returns it unchanged. -/
theorem cleanText_idempotent (s : String) : cleanText (cleanText s) = cleanText s := by
  simp only [cleanText]
  rw [show String.toList ⟨cleanTextL s.toList⟩ = cleanTextL s.toList from rfl]
  rw [cleanTextL_idem]

/-! ## C3 (amended): the normal form of `cleanText` -/

theorem crToLf_crToLf (c : Char) : crToLf (crToLf c) = crToLf c := by
  by_cases h : c = '\r'
  · subst h; rfl
  · simp [crToLf, h]

/-- C3 (amended): `cleanText` turns every CR into an LF (so a CR-LF pair
becomes two LFs and the result is the same as if each CR had been an LF),
collapses any run of three or more newlines to exactly two (no triple
newline survives), and trims leading/trailing whitespace (trimming again
changes nothing); a CR-LF input does not normalize like the LF input. -/
theorem cleanText_normal_form (l : List Char) :
    cleanTextL (l.map crToLf) = cleanTextL l ∧
    (∀ c ∈ cleanTextL l, c ≠ '\r') ∧
    noTriple (cleanTextL l) = true ∧
    trimChars (cleanTextL l) = cleanTextL l := by
  refine ⟨?_, no_cr_cleanText l, noTriple_cleanText l, trim_trim _⟩
  show trimChars (collapseAux 0 ((l.map crToLf).map crToLf)) = _
  rw [List.map_map]
  rw [show (crToLf ∘ crToLf) = crToLf from funext crToLf_crToLf]
  rfl

/-- Witness for C3 at a concrete input. -/
theorem cleanText_normal_form_witness :
    cleanTextL ("x\r\ny".toList.map crToLf) = cleanTextL "x\r\ny".toList :=
  (cleanText_normal_form "x\r\ny".toList).1

/-! ## C2 (amended): phone entries are normalized, with ≥ 10 digits -/

theorem wsToSpace_ws_eq_space {c : Char} :
    ∀ {b : Bool} {l : List Char}, c ∈ wsToSpaceAux b l → isWS c = true → c = ' ' := by
  intro b l
  induction l generalizing b with
  | nil => intro h; simp [wsToSpaceAux] at h
  | cons c0 rest ih =>
    intro h hws
    by_cases h0 : isWS c0
    · by_cases hb : b = true
      · subst hb
        rw [show wsToSpaceAux true (c0 :: rest) = wsToSpaceAux true rest by
          simp [wsToSpaceAux, h0]] at h
        exact ih h hws
      · rw [Bool.not_eq_true] at hb
        subst hb
        rw [show wsToSpaceAux false (c0 :: rest) = ' ' :: wsToSpaceAux true rest by
          simp [wsToSpaceAux, h0]] at h
        rcases List.mem_cons.mp h with rfl | h
        · rfl
        · exact ih h hws
    · rw [show wsToSpaceAux b (c0 :: rest) = c0 :: wsToSpaceAux false rest by
        simp [wsToSpaceAux, h0]] at h
      rcases List.mem_cons.mp h with rfl | h
      · exact absurd hws (by simpa using h0)
      · exact ih h hws

/-- C2 (amended): every entry of `phones` keeps at least 10 digits, is a
fixed point of trimming, and any whitespace inside it is a single-space
character — but entries are *not* de-duplicated (see the counterexample). -/
theorem phones_entries_normalized (s : String) (p : List Char)
    (h : p ∈ (parseResumeText s).phones) :
    10 ≤ (p.filter isDigit).length ∧ trimChars p = p ∧
    ∀ c ∈ p, isWS c = true → c = ' ' := by
  rw [show (parseResumeText s).phones =
      ((phoneMatches (cleanTextL s.toList)).map normPhone).filter
        (fun p => decide (10 ≤ (p.filter isDigit).length)) from rfl] at h
  have hf := List.mem_filter.mp h
  obtain ⟨m, _, rfl⟩ := List.mem_map.mp hf.1
  refine ⟨by simpa using hf.2, trim_trim _, ?_⟩
  intro c hc hws
  exact wsToSpace_ws_eq_space (mem_trimChars hc) hws

/-- Witness for C2 at a concrete input. -/
theorem phones_entries_normalized_witness :
    10 ≤ (("123-456-7890".toList).filter isDigit).length :=
  (phones_entries_normalized "123-456-7890" "123-456-7890".toList (by decide)).1

/-! ## C7: summary selection sorts stably by descending score and takes 4 -/

theorem mem_insertScored {z x : List Char × ℚ} :
    ∀ {m}, z ∈ insertScored x m ↔ z = x ∨ z ∈ m := by
  intro m
  induction m with
  | nil => simp [insertScored]
  | cons y ys ih =>
    by_cases hy : y.2 ≤ x.2
    · simp [insertScored, hy, List.mem_cons]
    · simp only [insertScored, if_neg hy, List.mem_cons, ih]
      tauto

theorem perm_insertScored (x : List Char × ℚ) :
    ∀ m, List.Perm (insertScored x m) (x :: m) := by
  intro m
  induction m with
  | nil => simp [insertScored]
  | cons y ys ih =>
    by_cases hy : y.2 ≤ x.2
    · simp [insertScored, hy]
    · rw [insertScored, if_neg hy]
      exact (ih.cons y).trans (List.Perm.swap x y ys)

theorem perm_sortScored : ∀ m, List.Perm (sortScored m) m := by
  intro m
  induction m with
  | nil => rfl
  | cons x xs ih =>
    rw [sortScored]
    exact (perm_insertScored x (sortScored xs)).trans (ih.cons x)

theorem sublist_insertScored (x : List Char × ℚ) :
    ∀ m : List (List Char × ℚ), m.Sublist (insertScored x m) := by
  intro m
  induction m with
  | nil => simp [insertScored]
  | cons y ys ih =>
    by_cases hy : y.2 ≤ x.2
    · rw [insertScored, if_pos hy]
      exact List.sublist_cons_self x (y :: ys)
    · rw [insertScored, if_neg hy]
      exact ih.cons₂ y

theorem pair_sublist_insertScored {x y : List Char × ℚ} :
    ∀ {m}, y ∈ m → y.2 ≤ x.2 → [x, y].Sublist (insertScored x m) := by
  intro m
  induction m with
  | nil => intro h; simp at h
  | cons z zs ih =>
    intro hy hle
    by_cases hz : z.2 ≤ x.2
    · rw [insertScored, if_pos hz]
      exact (List.singleton_sublist.mpr hy).cons₂ x
    · rw [insertScored, if_neg hz]
      rcases List.mem_cons.mp hy with rfl | hy'
      · exact absurd hle hz
      · exact (ih hy' hle).cons z

theorem stable_sortScored {a b : List Char × ℚ} :
    ∀ {m}, [a, b].Sublist m → b.2 ≤ a.2 → [a, b].Sublist (sortScored m) := by
  intro m
  induction m with
  | nil => intro h; simp at h
  | cons x xs ih =>
    intro h hle
    rw [sortScored]
    cases h with
    | cons _ h' => exact (ih h' hle).trans (sublist_insertScored x (sortScored xs))
    | cons₂ _ h' =>
      have hb : b ∈ sortScored xs :=
        (perm_sortScored xs).mem_iff.mpr (List.singleton_sublist.mp h')
      exact pair_sublist_insertScored hb hle

theorem pairwise_insertScored {x : List Char × ℚ} :
    ∀ {m}, List.Pairwise (fun p q : List Char × ℚ => q.2 ≤ p.2) m →
      List.Pairwise (fun p q : List Char × ℚ => q.2 ≤ p.2) (insertScored x m) := by
  intro m
  induction m with
  | nil => intro _; simp [insertScored]
  | cons z zs ih =>
    intro h
    rw [List.pairwise_cons] at h
    by_cases hz : z.2 ≤ x.2
    · rw [insertScored, if_pos hz, List.pairwise_cons]
      refine ⟨?_, List.pairwise_cons.mpr h⟩
      intro w hw
      rcases List.mem_cons.mp hw with rfl | hw'
      · exact hz
      · exact (h.1 w hw').trans hz
    · rw [insertScored, if_neg hz, List.pairwise_cons]
      refine ⟨?_, ih h.2⟩
      intro w hw
      rcases mem_insertScored.mp hw with rfl | hw'
      · exact le_of_not_le hz
      · exact h.1 w hw'

theorem pairwise_sortScored :
    ∀ m, List.Pairwise (fun p q : List Char × ℚ => q.2 ≤ p.2) (sortScored m) := by
  intro m
  induction m with
  | nil => simp [sortScored]
  | cons x xs ih => exact pairwise_insertScored ih

theorem sublist_take_of_mem {α : Type} {x y : α} :
    ∀ {m : List α} {n : ℕ}, m.Nodup → [x, y].Sublist m → y ∈ m.take n →
      [x, y].Sublist (m.take n) := by
  intro m
  induction m with
  | nil => intro n _ h; simp at h
  | cons c cs ih =>
    intro n hnd h hy
    cases n with
    | zero => simp at hy
    | succ n =>
      rw [List.take_succ_cons] at hy ⊢
      have hcnot : c ∉ cs := (List.nodup_cons.mp hnd).1
      cases h with
      | cons _ h' =>
        have hymem : y ∈ cs := h'.subset (by simp)
        have hyne : y ≠ c := fun he => hcnot (he ▸ hymem)
        have hy' : y ∈ cs.take n := by
          rcases List.mem_cons.mp hy with rfl | hy'
          · exact absurd rfl hyne
          · exact hy'
        exact (ih (List.nodup_cons.mp hnd).2 h' hy').cons _
      | cons₂ _ h' =>
        have hymem : y ∈ cs := List.singleton_sublist.mp h'
        have hyne : y ≠ x := fun he => hcnot (he ▸ hymem)
        have hy' : y ∈ cs.take n := by
          rcases List.mem_cons.mp hy with rfl | hy'
          · exact absurd rfl hyne
          · exact hy'
        exact (List.singleton_sublist.mpr hy').cons₂ _

theorem length_sortScored (m : List (List Char × ℚ)) :
    (sortScored m).length = m.length := (perm_sortScored m).length_eq

theorem mem_sortScored_tag {l : List (List Char)} {p : List Char × ℚ}
    (hp : p ∈ sortScored (l.map (fun s => (s, scoreSentence s)))) :
    p.2 = scoreSentence p.1 := by
  have := (perm_sortScored _).mem_iff.mp hp
  obtain ⟨x, _, rfl⟩ := List.mem_map.mp this
  rfl

theorem buildSummary_length_le (l : List (List Char)) :
    (buildSummary l).length ≤ 4 := by
  by_cases he : l.isEmpty
  · simp [buildSummary, he]
  · simp only [buildSummary, if_neg he]
    by_cases ht :
      (((sortScored (l.map (fun s => (s, scoreSentence s)))).take 4).map
        (fun p => p.1)).isEmpty
    · simp only [if_pos ht]
      have := List.length_take_le 3 l
      omega
    · simp only [if_neg ht]
      simp [List.length_take]

theorem buildSummary_top_ne {l : List (List Char)} (he : ¬l.isEmpty = true) :
    ¬(((sortScored (l.map (fun s => (s, scoreSentence s)))).take 4).map
      (fun p : List Char × ℚ => p.1)).isEmpty = true := by
  rw [List.isEmpty_iff, ← List.length_eq_zero]
  have h1 : l ≠ [] := by simpa [List.isEmpty_iff] using he
  have h2 : 1 ≤ l.length := by
    cases l with
    | nil => exact absurd rfl h1
    | cons a as => simp
  simp only [List.length_map, List.length_take, length_sortScored, List.length_map]
  omega

/-- C7: `buildSummary` maps the empty sentence list to the empty summary,
returns at most 4 sentences, in non-increasing score order; for a list of
unique sentences the descending sort is stable, so of two equal-scored
sentences the earlier one is kept earlier (and is kept whenever the later
one survives the top-4 cut); consequently the summary field of
`parseResumeText` always has at most 4 entries. -/
theorem buildSummary_spec (l : List (List Char)) (hnd : l.Nodup) (s : String) :
    buildSummary [] = [] ∧
    (buildSummary l).length ≤ 4 ∧
    List.Pairwise (fun a b => scoreSentence b ≤ scoreSentence a) (buildSummary l) ∧
    (∀ a b, scoreSentence a = scoreSentence b → [a, b].Sublist l →
      b ∈ buildSummary l → [a, b].Sublist (buildSummary l)) ∧
    (parseResumeText s).summary.length ≤ 4 := by
  refine ⟨rfl, buildSummary_length_le l, ?_, ?_, buildSummary_length_le _⟩
  · by_cases he : l.isEmpty
    · simp [buildSummary, he]
    · simp only [buildSummary, if_neg he, if_neg (buildSummary_top_ne he)]
      rw [List.pairwise_map]
      have hpw := pairwise_sortScored (l.map (fun s => (s, scoreSentence s)))
      have hpw2 := hpw.sublist (List.take_sublist 4 _)
      refine hpw2.imp_of_mem ?_
      intro p q hp hq hle
      have hp2 := mem_sortScored_tag ((List.take_sublist 4 _).subset hp)
      have hq2 := mem_sortScored_tag ((List.take_sublist 4 _).subset hq)
      rw [← hp2, ← hq2]
      exact hle
  · intro a b hsc hab hb
    by_cases he : l.isEmpty
    · rw [List.isEmpty_iff.mp he] at hab
      simp at hab
    · simp only [buildSummary, if_neg he, if_neg (buildSummary_top_ne he)] at hb ⊢
      have h1 : [(a, scoreSentence a), (b, scoreSentence b)].Sublist
          (l.map (fun s => (s, scoreSentence s))) := by
        have := hab.map (fun s => (s, scoreSentence s))
        simpa using this
      have h2 := stable_sortScored h1 (le_of_eq hsc.symm)
      have hndm : (sortScored (l.map (fun s => (s, scoreSentence s)))).Nodup := by
        refine ((perm_sortScored _).nodup_iff).mpr ?_
        exact hnd.map (fun x y hxy => congrArg Prod.fst hxy)
      have hbm : (b, scoreSentence b) ∈
          (sortScored (l.map (fun s => (s, scoreSentence s)))).take 4 := by
        obtain ⟨p, hp, hfst⟩ := List.mem_map.mp hb
        have hp2 := mem_sortScored_tag ((List.take_sublist 4 _).subset hp)
        have : p = (b, scoreSentence b) := by
          obtain ⟨p1, p2⟩ := p
          simp only at hfst hp2
          rw [hfst] at hp2 ⊢
          rw [hp2]
        exact this ▸ hp
      have h3 := sublist_take_of_mem hndm h2 hbm
      have h4 := h3.map (fun p : List Char × ℚ => p.1)
      simpa using h4

/-- Witness for C7 at a concrete input. -/
theorem buildSummary_spec_witness :
    ["Aa.".toList, "Bb.".toList].Sublist
      (buildSummary ["Aa.".toList, "Bb.".toList]) := by
  have hsc : scoreSentence "Aa.".toList = scoreSentence "Bb.".toList := by
    rw [scoreSentence_eq_scaled, scoreSentence_eq_scaled,
      show scoreScaled "Aa.".toList = scoreScaled "Bb.".toList from by decide]
  have hb : "Bb.".toList ∈ buildSummary ["Aa.".toList, "Bb.".toList] := by
    have hle : scoreSentence "Bb.".toList ≤ scoreSentence "Aa.".toList :=
      le_of_eq hsc.symm
    have hle2 : scoreSentence ['B', 'b', '.'] ≤ scoreSentence ['A', 'a', '.'] := hle
    simp [buildSummary, sortScored, insertScored, hle2]
  exact (buildSummary_spec ["Aa.".toList, "Bb.".toList] (by decide) "x").2.2.2.1
    "Aa.".toList "Bb.".toList hsc (List.Sublist.refl _) hb

end Resume
